import Mathlib

/-!
Verification development for the `setup-env` configuration assistant.

The Go sources are shallowly embedded: strings become `List Char`, the
line codec of `env_utils.go` becomes pure functions, the diff computation
and the interactive workflow of `model.go` become a pure function and a
step relation on an explicit state type.  File I/O is modelled by passing
file contents as values and recording mutation effects in a list.
-/

namespace SetupEnv

/-- Strings are modelled as lists of characters. -/
abbrev Str := List Char

/-- Characters treated as white space by the trimming in the source.
Models Go's `unicode.IsSpace` over the code points that function reports
as space. -/
def isSpaceChar (c : Char) : Bool :=
  ([0x09, 0x0A, 0x0B, 0x0C, 0x0D, 0x20, 0x85, 0xA0, 0x1680,
    0x2000, 0x2001, 0x2002, 0x2003, 0x2004, 0x2005, 0x2006, 0x2007,
    0x2008, 0x2009, 0x200A, 0x2028, 0x2029, 0x202F, 0x205F, 0x3000] : List Nat).contains c.toNat

/-- Model of Go `strings.TrimSpace`: drop white space from both ends. -/
def trimSpace (s : Str) : Str :=
  ((s.dropWhile isSpaceChar).reverse.dropWhile isSpaceChar).reverse

/-- Model of Go `strings.SplitN(s, sep, 2)` for a one-character separator:
the part before the first separator, and, when the separator occurs, the
whole remainder after it. -/
def splitFirst (sep : Char) : Str → Str × Option Str
  | [] => ([], none)
  | c :: rest =>
    if c = sep then ([], some rest)
    else
      let p := splitFirst sep rest
      (c :: p.1, p.2)

/-- Fuel-indexed left-to-right non-overlapping replacement; the work loop
of `replaceAll`.  When the fuel is at least the length of the string the
fuel never runs out, because each step consumes at least one character. -/
def replaceAllGo (pat rep : Str) : Nat → Str → Str
  | _, [] => []
  | 0, s => s
  | fuel + 1, c :: rest =>
    if (c :: rest).take pat.length = pat ∧ pat ≠ [] then
      rep ++ replaceAllGo pat rep fuel ((c :: rest).drop pat.length)
    else
      c :: replaceAllGo pat rep fuel rest

/-- Model of Go `strings.ReplaceAll(s, pat, rep)` for a non-empty pattern
(every use in the source has a non-empty pattern). -/
def replaceAll (pat rep s : Str) : Str :=
  replaceAllGo pat rep s.length s

/-- Backtick character (written via its code point). -/
def backtickChar : Char := Char.ofNat 96

/-- Characters that force quoting in `writeEnvFile`
(Go string literal: space, hash, equals, quote, dollar, backslash,
backtick, newline, carriage return). -/
def disallowedChars : Str :=
  [' ', '#', '=', '\"', '$', '\\', backtickChar, '\n', '\r']

/-- Model of Go `strings.ContainsAny`. -/
def containsAny (s chars : Str) : Bool :=
  s.any fun c => chars.contains c

/-- Quoting test of `writeEnvFile`: empty values and values containing a
disallowed character are quoted. -/
def needsQuoting (v : Str) : Bool :=
  v.isEmpty || containsAny v disallowedChars

/-- Escaping performed by `writeEnvFile` when quoting: backslash, then
double quote, then newline, then carriage return, in source order. -/
def escapeValue (v : Str) : Str :=
  replaceAll ['\r'] ['\\', 'r']
    (replaceAll ['\n'] ['\\', 'n']
      (replaceAll ['\"'] ['\\', '\"']
        (replaceAll ['\\'] ['\\', '\\'] v)))

/-- Single line (without terminator) produced for one key/value pair by
`writeEnvFile` (`fmt.Sprintf("%s=%s\n", key, outputValue)` minus the
trailing newline). -/
def encodeLine (k v : Str) : Str :=
  k ++ '=' :: (if needsQuoting v then '\"' :: escapeValue v ++ ['\"'] else v)

/-- Full output of `writeEnvFile` for one key/value pair, terminator
included. -/
def encodeEntry (k v : Str) : Str :=
  encodeLine k v ++ ['\n']

/-- Unquoting/unescaping shared by both parsers in `env_utils.go`:
strip surrounding double quotes when present, then replace each escaped
backslash and afterwards each escaped quote.  The source duplicates this
logic in `readEnvVarsFromFile` and `readExistingEnvFile`; the two copies
are character for character the same computation. -/
def unquoteValue (v : Str) : Str :=
  if 2 ≤ v.length ∧ v.head? = some '\"' ∧ v.getLast? = some '\"' then
    replaceAll ['\\', '\"'] ['\"'] (replaceAll ['\\', '\\'] ['\\'] ((v.drop 1).dropLast))
  else v

/-- Per-line body of `readExistingEnvFile`: skip blank and comment lines,
split on the first equals sign (both sides required), trim the key, and
unquote the value. -/
def decodeExistingConfigLine (line : Str) : Option (Str × Str) :=
  let l := trimSpace line
  if l = [] ∨ l.head? = some '#' then none
  else
    match splitFirst '=' l with
    | (_, none) => none
    | (k, some v) => some (trimSpace k, unquoteValue v)

/-- Template field record, after Go's `EnvVar` struct. -/
structure EnvVar where
  Key : Str
  Description : Str
  ExampleValue : Str
deriving DecidableEq, Repr

/-- Per-line body of `readEnvVarsFromFile`: skip blank and comment lines,
split off an inline description at the first hash, split the remainder on
the first equals sign, trim the key, unquote the value, and drop lines
whose key is empty. -/
def decodeTemplateLine (line : Str) : Option EnvVar :=
  let l := trimSpace line
  if l = [] ∨ l.head? = some '#' then none
  else
    let kd : Str × Str :=
      match splitFirst '#' l with
      | (_, none) => (l, [])
      | (pre, some post) => (trimSpace pre, trimSpace post)
    let parts := splitFirst '=' kd.1
    let key := trimSpace parts.1
    let exampleValue : Str :=
      match parts.2 with
      | none => []
      | some p1 => unquoteValue (trimSpace p1)
    if key = [] then none
    else some ⟨key, kd.2, exampleValue⟩

/-- Drop one trailing carriage return, as `bufio.ScanLines` does. -/
def dropTrailingCR (l : Str) : Str :=
  if l.getLast? = some '\r' then l.dropLast else l

/-- Split on every occurrence of a character; always returns at least one
(possibly empty) part. -/
def splitOnChar (sep : Char) : Str → List Str
  | [] => [[]]
  | c :: rest =>
    if c = sep then [] :: splitOnChar sep rest
    else
      match splitOnChar sep rest with
      | [] => [[c]]
      | p :: ps => (c :: p) :: ps

/-- Model of scanning a file with `bufio.Scanner` line splitting: tokens
are the newline-separated pieces, a trailing newline produces no extra
empty token, and one trailing carriage return is dropped from each
token. -/
def splitLines (s : Str) : List Str :=
  if s = [] then []
  else
    let parts := splitOnChar '\n' s
    (if s.getLast? = some '\n' then parts.dropLast else parts).map dropTrailingCR

/-- Model of `readEnvVarsFromFile`, applied to the template file's
content. -/
def readEnvVarsFromFile (content : Str) : List EnvVar :=
  (splitLines content).filterMap decodeTemplateLine

/-- Configuration maps are association lists with unique keys, written in
insertion order; models a Go `map[string]string` together with the order
in which the source iterates it. -/
abbrev ConfigMap := List (Str × Str)

/-- Map update: replace the value of an existing key, or append a new
binding. -/
def insertKV : ConfigMap → Str → Str → ConfigMap
  | [], k, v => [(k, v)]
  | (k', v') :: rest, k, v =>
    if k' = k then (k, v) :: rest else (k', v') :: insertKV rest k v

/-- Map lookup (`m[k]` with its presence flag). -/
def lookupKV : ConfigMap → Str → Option Str
  | [], _ => none
  | (k', v') :: rest, k => if k' = k then some v' else lookupKV rest k

/-- Keys of a configuration map. -/
def keysOf (m : ConfigMap) : List Str :=
  m.map Prod.fst

/-- Model of `readExistingEnvFile`, applied to the target file's content:
fold every decodable line into the map. -/
def readExistingEnvFile (content : Str) : ConfigMap :=
  (splitLines content).foldl
    (fun values line =>
      match decodeExistingConfigLine line with
      | some kv => insertKV values kv.1 kv.2
      | none => values) []

/-- Full content written by `writeEnvFile`, with the map iterated in
list order (Go map iteration order is unspecified; the claims below only
concern which entries appear). -/
def writeEnvFile (values : ConfigMap) : Str :=
  (values.map fun kv => encodeEntry kv.1 kv.2).flatten

/-- Change records, the tagged variant the specification's diff engine
produces (the source renders them as formatted diff lines with exactly
these three shapes). -/
inductive ChangeRecord where
  | Added (key newValue : Str)
  | Changed (key oldValue newValue : Str)
  | Cleared (key oldValue : Str)
deriving DecidableEq, Repr

/-- Key mentioned by a change record. -/
def ChangeRecord.recKey : ChangeRecord → Str
  | .Added k _ => k
  | .Changed k _ _ => k
  | .Cleared k _ => k

/-- Per-key body of the diff loop in `prepareForConfirmation`:
`oldValue, oldExists := m.existingEnvValues[key]`,
`newValue := collectedEnvValues[key]` (a Go map read defaulting to the
empty string), then the three emitting branches in source order. -/
def changeFor (old collected : ConfigMap) (key : Str) : Option ChangeRecord :=
  let newValue := (lookupKV collected key).getD []
  match lookupKV old key with
  | none =>
    if newValue ≠ [] then some (.Added key newValue)
    else some (.Added key [])
  | some oldValue =>
    if newValue ≠ oldValue then
      if newValue = [] then some (.Cleared key oldValue)
      else some (.Changed key oldValue newValue)
    else none

/-- Diff loop of `prepareForConfirmation`: walk the template keys in
declaration order and append the record each key produces. -/
def computeChanges (old collected : ConfigMap) (order : List Str) : List ChangeRecord :=
  order.foldl (fun acc key => acc ++ (changeFor old collected key).toList) []

/-- Initial value shown for one field in `model.Init`: the existing
value when present, overridden by the template example value when the
key is missing or its existing value is empty and the example value is
non-empty. -/
def initialFieldValue (existing : ConfigMap) (ev : EnvVar) : Str :=
  let initialValue := (lookupKV existing ev.Key).getD []
  if ((lookupKV existing ev.Key).isSome = false ∨ initialValue = []) ∧ ev.ExampleValue ≠ [] then
    ev.ExampleValue
  else initialValue

/-- Work loop of the value collection in `prepareForConfirmation`: one
binding per template field, read from the input field of the same
index. -/
def collectValuesAux (fieldValue : Nat → Str) : Nat → List EnvVar → ConfigMap → ConfigMap
  | _, [], values => values
  | i, ev :: rest, values =>
    collectValuesAux fieldValue (i + 1) rest (insertKV values ev.Key (fieldValue i))

/-- Values collected from the input fields by `prepareForConfirmation`,
with the external input collaborator modelled as the function from field
index to the string it returns. -/
def collectValues (envVars : List EnvVar) (fieldValue : Nat → Str) : ConfigMap :=
  collectValuesAux fieldValue 0 envVars []

/-- Phases of the workflow after successful initialisation, following the
specification's state names; the `huh` main form on screen is
`Collecting`, the confirmation form with a pending diff is `Reviewing`,
and `model.quitting` splits into `Done` and `Aborted` according to which
branch of `model.Update` set it. -/
inductive Phase where
  | Collecting
  | Reviewing (valuesToSave : ConfigMap)
  | Done
  | Aborted
deriving DecidableEq, Repr

/-- File mutations performed by `actuallyWriteEnvFile`, recorded instead
of executed. -/
inductive FileEffect where
  | Backup
  | Write (values : ConfigMap)
deriving DecidableEq, Repr

/-- Workflow state: current phase plus the trace of file mutations
performed so far. -/
structure WState where
  phase : Phase
  effects : List FileEffect
deriving DecidableEq, Repr

/-- External events driving `model.Update`: the main form finishing (the
collaborator hands over one string per field), the main form aborting,
the confirmation form finishing with the bound boolean, the confirmation
form aborting, and a keyboard interrupt. -/
inductive WEvent where
  | formCompleted (fieldValue : Nat → Str)
  | formAborted
  | confirmCompleted (applyChanges : Bool)
  | confirmAborted
  | interrupt

/-- One dispatch of `model.Update`.  In `Collecting`, a completed main
form runs `prepareForConfirmation`: collect the values, compute the
diff, quit directly when it is empty, otherwise enter confirmation.  In
`Reviewing`, an affirmative confirmation runs `actuallyWriteEnvFile`
(backup of an existing regular target file, then the write), while a
negative or aborted confirmation just quits.  Interrupts quit
immediately.  Terminal phases absorb every event. -/
def step (envVars : List EnvVar) (existing : ConfigMap) (targetExists : Bool)
    (s : WState) (e : WEvent) : WState :=
  match s.phase with
  | .Done => s
  | .Aborted => s
  | .Collecting =>
    match e with
    | .interrupt => { s with phase := .Aborted }
    | .formAborted => { s with phase := .Aborted }
    | .formCompleted fieldValue =>
      let collected := collectValues envVars fieldValue
      if computeChanges existing collected (envVars.map EnvVar.Key) = [] then
        { s with phase := .Done }
      else
        { s with phase := .Reviewing collected }
    | _ => s
  | .Reviewing valuesToSave =>
    match e with
    | .interrupt => { s with phase := .Aborted }
    | .confirmAborted => { s with phase := .Aborted }
    | .confirmCompleted true =>
      { phase := .Done,
        effects := s.effects ++ (if targetExists then [.Backup] else []) ++ [.Write valuesToSave] }
    | .confirmCompleted false => { s with phase := .Aborted }
    | _ => s

/-- Run of the workflow from the freshly initialised state over a list
of external events. -/
def runWorkflow (envVars : List EnvVar) (existing : ConfigMap) (targetExists : Bool)
    (events : List WEvent) : WState :=
  events.foldl (step envVars existing targetExists) ⟨.Collecting, []⟩

/-- Per-key diff rule as the specification words it:
`Added(key, new[key])` for a key absent from the old map with a
non-empty new value, `Added(key, "")` for a key absent from the old map
with an empty new value, `Cleared(key, v)` for a present key whose new
value is empty and differs, `Changed(key, v, new[key])` for a present
key whose new value is non-empty and differs, and no record when old and
new agree. -/
def changeRecordSpec (old collected : ConfigMap) (key : Str) : Option ChangeRecord :=
  let newValue := (lookupKV collected key).getD []
  match lookupKV old key with
  | none =>
    if newValue = [] then some (.Added key [])
    else some (.Added key newValue)
  | some oldValue =>
    if newValue = oldValue then none
    else if newValue = [] then some (.Cleared key oldValue)
    else some (.Changed key oldValue newValue)

/-- Initial field value as the specification words it: existing
persisted value when non-empty, else the template default when
non-empty, else the empty string. -/
def initialValueSpec (existing : ConfigMap) (ev : EnvVar) : Str :=
  match lookupKV existing ev.Key with
  | some v =>
    if v ≠ [] then v
    else if ev.ExampleValue ≠ [] then ev.ExampleValue else []
  | none => if ev.ExampleValue ≠ [] then ev.ExampleValue else []

/-- States reachable from the freshly initialised workflow satisfy: no
file mutation before or outside a commit, review only of values
collected from the fields and only when the diff is non-empty, and every
written map is a collected map. -/
def reachInv (envVars : List EnvVar) (existing : ConfigMap) (s : WState) : Prop :=
  (s.phase = Phase.Collecting → s.effects = []) ∧
  (s.phase = Phase.Aborted → s.effects = []) ∧
  (∀ vals, s.phase = Phase.Reviewing vals →
      s.effects = [] ∧ (∃ f, vals = collectValues envVars f) ∧
      computeChanges existing vals (envVars.map EnvVar.Key) ≠ []) ∧
  (∀ vals, FileEffect.Write vals ∈ s.effects → ∃ f, vals = collectValues envVars f)

/-! Helper lemmas about the string primitives. -/

lemma dropWhile_eq_self_of_head (p : Char → Bool) (l : Str)
    (h : ∀ c, l.head? = some c → p c = false) : l.dropWhile p = l := by
  cases l with
  | nil => rfl
  | cons c rest => simp [List.dropWhile_cons, h c rfl]

lemma trimSpace_eq_self (s : Str)
    (h1 : ∀ c, s.head? = some c → isSpaceChar c = false)
    (h2 : ∀ c, s.getLast? = some c → isSpaceChar c = false) :
    trimSpace s = s := by
  unfold trimSpace
  rw [dropWhile_eq_self_of_head _ _ h1]
  rw [dropWhile_eq_self_of_head _ _ (fun c hc => h2 c (by rwa [List.head?_reverse] at hc))]
  exact s.reverse_reverse

lemma splitFirst_append (sep : Char) (k v : Str) (h : sep ∉ k) :
    splitFirst sep (k ++ sep :: v) = (k, some v) := by
  induction k with
  | nil => simp [splitFirst]
  | cons c rest ih =>
    have hc : ¬c = sep := fun e => h (by simp [e])
    have hrest : sep ∉ rest := fun m => h (List.mem_cons_of_mem _ m)
    simp [splitFirst, hc, ih hrest]

lemma splitFirst_of_not_mem (sep : Char) (s : Str) (h : sep ∉ s) :
    splitFirst sep s = (s, none) := by
  induction s with
  | nil => rfl
  | cons c rest ih =>
    have hc : ¬c = sep := fun e => h (by simp [e])
    have hrest : sep ∉ rest := fun m => h (List.mem_cons_of_mem _ m)
    simp [splitFirst, hc, ih hrest]

lemma containsAny_eq_false (s chars : Str) (h : ∀ c ∈ s, c ∉ chars) :
    containsAny s chars = false := by
  simp only [containsAny, List.any_eq_false]
  intro c hc
  simpa [List.elem_iff] using h c hc

/-! Helper lemmas about configuration maps. -/

lemma mem_keysOf_insertKV (m : ConfigMap) (k : Str) (v : Str) (k' : Str) :
    k' ∈ keysOf (insertKV m k v) ↔ k' = k ∨ k' ∈ keysOf m := by
  induction m with
  | nil => simp [insertKV, keysOf]
  | cons p rest ih =>
    obtain ⟨k0, v0⟩ := p
    by_cases h : k0 = k
    · subst h
      simp [insertKV, keysOf]
    · simp [insertKV, h, keysOf] at ih ⊢
      tauto

lemma lookupKV_isSome_iff (m : ConfigMap) (k : Str) :
    (lookupKV m k).isSome ↔ k ∈ keysOf m := by
  induction m with
  | nil => simp [lookupKV, keysOf]
  | cons p rest ih =>
    obtain ⟨k0, v0⟩ := p
    by_cases h : k0 = k
    · subst h; simp [lookupKV, keysOf]
    · simp [lookupKV, h, keysOf, ih]
      exact fun e => absurd e.symm h

/-! Helper lemmas about the diff computation. -/

lemma computeChanges_go (old collected : ConfigMap) (order : List Str)
    (acc : List ChangeRecord) :
    order.foldl (fun acc key => acc ++ (changeFor old collected key).toList) acc
      = acc ++ order.filterMap (changeFor old collected) := by
  induction order generalizing acc with
  | nil => simp
  | cons k ks ih =>
    rw [List.foldl_cons, ih, List.filterMap_cons]
    cases changeFor old collected k <;> simp

lemma computeChanges_eq_filterMap (old collected : ConfigMap) (order : List Str) :
    computeChanges old collected order = order.filterMap (changeFor old collected) := by
  simpa using computeChanges_go old collected order []

lemma changeFor_key (old collected : ConfigMap) (k : Str) (r : ChangeRecord)
    (h : changeFor old collected k = some r) : r.recKey = k := by
  simp only [changeFor] at h
  cases hl : lookupKV old k <;> rw [hl] at h <;> dsimp only at h <;> split_ifs at h
  all_goals first
    | exact Option.noConfusion h
    | (injection h with h; subst h; rfl)

lemma changeFor_eq_none (old collected : ConfigMap) (k : Str)
    (h1 : (lookupKV old k).isSome) (h2 : lookupKV collected k = lookupKV old k) :
    changeFor old collected k = none := by
  obtain ⟨v, hv⟩ := Option.isSome_iff_exists.mp h1
  simp [changeFor, hv, h2]

/-! Helper lemmas about the value collection. -/

lemma mem_keysOf_collectValuesAux (f : Nat → Str) (l : List EnvVar) (i : Nat)
    (m : ConfigMap) (k : Str) :
    k ∈ keysOf (collectValuesAux f i l m) ↔ k ∈ keysOf m ∨ k ∈ l.map EnvVar.Key := by
  induction l generalizing i m with
  | nil => simp [collectValuesAux]
  | cons ev rest ih =>
    simp [collectValuesAux, ih, mem_keysOf_insertKV]
    tauto

lemma mem_keysOf_collectValues (envVars : List EnvVar) (f : Nat → Str) (k : Str) :
    k ∈ keysOf (collectValues envVars f) ↔ k ∈ envVars.map EnvVar.Key := by
  unfold collectValues
  rw [mem_keysOf_collectValuesAux]
  simp [keysOf]

/-! Reachability invariant of the workflow. -/

lemma step_preserves_reachInv (envVars : List EnvVar) (existing : ConfigMap)
    (targetExists : Bool) (s : WState) (e : WEvent)
    (h : reachInv envVars existing s) :
    reachInv envVars existing (step envVars existing targetExists s e) := by
  obtain ⟨ph, effs⟩ := s
  obtain ⟨hC, hA, hR, hW⟩ := h
  cases ph with
  | Collecting =>
    have he : effs = [] := hC rfl
    subst he
    cases e with
    | formCompleted f =>
      by_cases hd :
          computeChanges existing (collectValues envVars f) (envVars.map EnvVar.Key) = []
      · dsimp only [step]
        rw [if_pos hd]
        exact ⟨fun h => Phase.noConfusion h, fun h => Phase.noConfusion h,
               fun vals hv => Phase.noConfusion hv, fun vals hv => nomatch hv⟩
      · dsimp only [step]
        rw [if_neg hd]
        refine ⟨fun h => Phase.noConfusion h, fun h => Phase.noConfusion h, ?_,
                fun vals hv => nomatch hv⟩
        intro vals hv
        injection hv with hv
        subst hv
        exact ⟨rfl, ⟨f, rfl⟩, hd⟩
    | formAborted =>
      exact ⟨fun h => Phase.noConfusion h, fun _ => rfl,
             fun vals hv => Phase.noConfusion hv, fun vals hv => nomatch hv⟩
    | confirmCompleted b => exact ⟨hC, hA, hR, hW⟩
    | confirmAborted => exact ⟨hC, hA, hR, hW⟩
    | interrupt =>
      exact ⟨fun h => Phase.noConfusion h, fun _ => rfl,
             fun vals hv => Phase.noConfusion hv, fun vals hv => nomatch hv⟩
  | Reviewing vals =>
    obtain ⟨he, hf, hne⟩ := hR vals rfl
    subst he
    cases e with
    | formCompleted f => exact ⟨hC, hA, hR, hW⟩
    | formAborted => exact ⟨hC, hA, hR, hW⟩
    | confirmCompleted b =>
      cases b with
      | true =>
        cases targetExists with
        | false =>
          dsimp only [step]
          refine ⟨fun h => Phase.noConfusion h, fun h => Phase.noConfusion h,
                  fun vals' hv => Phase.noConfusion hv, ?_⟩
          intro vals' hv
          simp at hv
          subst hv
          exact hf
        | true =>
          dsimp only [step]
          refine ⟨fun h => Phase.noConfusion h, fun h => Phase.noConfusion h,
                  fun vals' hv => Phase.noConfusion hv, ?_⟩
          intro vals' hv
          simp at hv
          subst hv
          exact hf
      | false =>
        exact ⟨fun h => Phase.noConfusion h, fun _ => rfl,
               fun vals' hv => Phase.noConfusion hv, fun vals' hv => nomatch hv⟩
    | confirmAborted =>
      exact ⟨fun h => Phase.noConfusion h, fun _ => rfl,
             fun vals' hv => Phase.noConfusion hv, fun vals' hv => nomatch hv⟩
    | interrupt =>
      exact ⟨fun h => Phase.noConfusion h, fun _ => rfl,
             fun vals' hv => Phase.noConfusion hv, fun vals' hv => nomatch hv⟩
  | Done => exact ⟨hC, hA, hR, hW⟩
  | Aborted => exact ⟨hC, hA, hR, hW⟩

lemma reachInv_foldl (envVars : List EnvVar) (existing : ConfigMap)
    (targetExists : Bool) (events : List WEvent) (s : WState)
    (h : reachInv envVars existing s) :
    reachInv envVars existing (events.foldl (step envVars existing targetExists) s) := by
  induction events generalizing s with
  | nil => exact h
  | cons e es ih =>
    exact ih _ (step_preserves_reachInv envVars existing targetExists s e h)

lemma reachInv_runWorkflow (envVars : List EnvVar) (existing : ConfigMap)
    (targetExists : Bool) (events : List WEvent) :
    reachInv envVars existing (runWorkflow envVars existing targetExists events) := by
  refine reachInv_foldl envVars existing targetExists events _ ?_
  exact ⟨fun _ => rfl, by simp [reachInv], by simp [reachInv], by simp⟩

lemma trimSpace_append_tail (k tail : Str)
    (hkh : ∀ c, k.head? = some c → isSpaceChar c = false)
    (hth : ∀ c, tail.head? = some c → isSpaceChar c = false)
    (htl : ∀ c, tail.getLast? = some c → isSpaceChar c = false)
    (htne : tail ≠ []) :
    trimSpace (k ++ tail) = k ++ tail := by
  apply trimSpace_eq_self
  · intro c hc
    cases k with
    | nil => exact hth c (by simpa using hc)
    | cons c0 k' =>
      have h0 : c0 = c := by simpa using hc
      exact h0 ▸ hkh c0 rfl
  · intro c hc
    rw [List.getLast?_append_of_ne_nil _ htne] at hc
    exact htl c hc

/-! Claim theorems. -/

/-- C1, counterexample: the template `A=1` declares only the key `A`,
yet loading an existing target file `B=2` produces a configuration map
that contains the undeclared key `B`; so the loaded prior configuration
is not restricted to template-declared keys. -/
theorem C1_undeclared_key_loaded :
    readEnvVarsFromFile ['A', '=', '1'] = [⟨['A'], [], ['1']⟩] ∧
    ['B'] ∈ keysOf (readExistingEnvFile ['B', '=', '2']) ∧
    ['B'] ∉ (readEnvVarsFromFile ['A', '=', '1']).map EnvVar.Key := by
  decide

/-- C1, amended: the newly collected configuration map and every emitted
change record only mention template-declared keys; the prior
configuration loaded from the target file is exempt, as the
counterexample shows. -/
theorem C1_keys_subset_of_template (envVars : List EnvVar) (f : Nat → Str)
    (old collected : ConfigMap) :
    (∀ k, k ∈ keysOf (collectValues envVars f) → k ∈ envVars.map EnvVar.Key) ∧
    (∀ r, r ∈ computeChanges old collected (envVars.map EnvVar.Key) →
        r.recKey ∈ envVars.map EnvVar.Key) := by
  constructor
  · intro k hk
    exact (mem_keysOf_collectValues envVars f k).mp hk
  · intro r hr
    rw [computeChanges_eq_filterMap] at hr
    obtain ⟨k, hk, hck⟩ := List.mem_filterMap.mp hr
    rw [changeFor_key old collected k r hck]
    exact hk

/-- C5: the diff loop emits, in template order, exactly the record the
specification's case analysis assigns to each key — `Added` for keys
absent from the old map (with the collected value, empty or not),
`Cleared` for present keys whose new value is empty and differs,
`Changed` for present keys whose new value is non-empty and differs, and
nothing for unchanged keys. -/
theorem C5_diff_case_analysis (old collected : ConfigMap) (order : List Str) :
    computeChanges old collected order = order.filterMap (changeRecordSpec old collected) := by
  rw [computeChanges_eq_filterMap]
  have h : ∀ k, changeFor old collected k = changeRecordSpec old collected k := by
    intro k
    simp only [changeFor, changeRecordSpec]
    cases lookupKV old k <;> dsimp only <;> split_ifs <;> simp_all
  simp only [funext h]

/-- C6, counterexample: on a key that the order mentions but the map
does not contain, diffing a map against itself emits `Added(key, "")`
(the Go map read of the missing key produces the empty string), so the
result is not the empty sequence. -/
theorem C6_self_diff_missing_key :
    computeChanges [] [] [['A']] = [ChangeRecord.Added ['A'] []] ∧
    computeChanges [] [] [['A']] ≠ [] := by
  decide

/-- C6, amended: diffing a configuration map against itself yields no
change records provided every key of the order is present in the map. -/
theorem C6_self_diff_empty (old : ConfigMap) (order : List Str)
    (h : ∀ k ∈ order, k ∈ keysOf old) :
    computeChanges old old order = [] := by
  rw [computeChanges_eq_filterMap]
  rw [List.filterMap_eq_nil_iff]
  intro k hk
  exact changeFor_eq_none old old k ((lookupKV_isSome_iff old k).mpr (h k hk)) rfl

/-- C6, witness for the amended theorem at a concrete map and order. -/
theorem C6_self_diff_empty_witness :
    computeChanges [(['A'], ['1'])] [(['A'], ['1'])] [['A']] = [] :=
  C6_self_diff_empty [(['A'], ['1'])] [['A']] (by decide)

/-- C7: the initial value of each field computed by `model.Init` equals
the specification's strict priority — existing persisted value when
non-empty, else the template default when non-empty, else the empty
string. -/
theorem C7_initial_value_priority (existing : ConfigMap) (ev : EnvVar) :
    initialFieldValue existing ev = initialValueSpec existing ev := by
  simp only [initialFieldValue, initialValueSpec]
  cases h : lookupKV existing ev.Key <;> dsimp only <;> split_ifs <;> simp_all

/-- C8, counterexample: an empty non-quoted value (`K=`) and an
explicitly quoted empty value (`K=""`) parse to identical field records
— both carry the empty string as example value, so the two cases are not
distinguishable in the resulting `FieldSpec`. -/
theorem C8_empty_default_not_distinguishable :
    decodeTemplateLine ['K', '='] = some ⟨['K'], [], []⟩ ∧
    decodeTemplateLine ['K', '=', '\"', '\"'] = some ⟨['K'], [], []⟩ ∧
    decodeTemplateLine ['K', '='] = decodeTemplateLine ['K', '=', '\"', '\"'] := by
  decide

/-- C9: the stored line `K="\\\\""` decodes to the value
backslash-quote, but re-encoding that value produces the different
(canonical) line `K="\\\""`; hence re-encoding after decoding a stored
line representing a value that contains a backslash immediately followed
by a quote does not return its input.  The cause is that decoding
replaces the two-backslash escape before the backslash-quote escape, so
the two distinct stored bodies collapse to the same value. -/
theorem C9_backslash_quote_ambiguity :
    decodeExistingConfigLine ['K', '=', '\"', '\\', '\\', '\\', '\\', '\"', '\"'] =
      some (['K'], ['\\', '\"']) ∧
    decodeExistingConfigLine (encodeLine ['K'] ['\\', '\"']) =
      some (['K'], ['\\', '\"']) ∧
    encodeLine ['K'] ['\\', '\"'] ≠ ['K', '=', '\"', '\\', '\\', '\\', '\\', '\"', '\"'] := by
  decide

/-- C2: file mutations happen only on the committing transition, which
is taken from `Reviewing` on an affirmative confirmation, and `Reviewing`
is reachable only with a non-empty computed diff; an empty diff moves
`Collecting` directly to `Done` without touching the effects; and a run
that ends `Aborted` (cancellation or decline at either suspension point)
has performed no file mutation at all. -/
theorem C2_commit_gating (envVars : List EnvVar) (existing : ConfigMap)
    (targetExists : Bool) (events : List WEvent) :
    ((runWorkflow envVars existing targetExists events).phase = Phase.Aborted →
        (runWorkflow envVars existing targetExists events).effects = []) ∧
    ((runWorkflow envVars existing targetExists events).phase = Phase.Collecting →
        (runWorkflow envVars existing targetExists events).effects = []) ∧
    (∀ vals, (runWorkflow envVars existing targetExists events).phase = Phase.Reviewing vals →
        (runWorkflow envVars existing targetExists events).effects = [] ∧
        computeChanges existing vals (envVars.map EnvVar.Key) ≠ []) ∧
    (∀ effs f, computeChanges existing (collectValues envVars f) (envVars.map EnvVar.Key) = [] →
        step envVars existing targetExists ⟨Phase.Collecting, effs⟩ (WEvent.formCompleted f) =
          ⟨Phase.Done, effs⟩) ∧
    (∀ s e, (step envVars existing targetExists s e).effects ≠ s.effects →
        ∃ vals, s.phase = Phase.Reviewing vals ∧ e = WEvent.confirmCompleted true ∧
          (step envVars existing targetExists s e).phase = Phase.Done ∧
          (step envVars existing targetExists s e).effects =
            s.effects ++ (if targetExists then [FileEffect.Backup] else []) ++
              [FileEffect.Write vals]) := by
  obtain ⟨hC, hA, hR, hW⟩ := reachInv_runWorkflow envVars existing targetExists events
  refine ⟨hA, hC, fun vals hv => ⟨(hR vals hv).1, (hR vals hv).2.2⟩, ?_, ?_⟩
  · intro effs f hd
    dsimp only [step]
    rw [if_pos hd]
  · intro s e hne
    obtain ⟨ph, effs⟩ := s
    cases ph with
    | Collecting =>
      cases e with
      | formCompleted f =>
        by_cases hd :
            computeChanges existing (collectValues envVars f) (envVars.map EnvVar.Key) = []
        · exact absurd (by dsimp only [step]; rw [if_pos hd]) hne
        · exact absurd (by dsimp only [step]; rw [if_neg hd]) hne
      | formAborted => exact absurd rfl hne
      | confirmCompleted b => exact absurd rfl hne
      | confirmAborted => exact absurd rfl hne
      | interrupt => exact absurd rfl hne
    | Reviewing vals =>
      cases e with
      | formCompleted f => exact absurd rfl hne
      | formAborted => exact absurd rfl hne
      | confirmCompleted b =>
        cases b with
        | true => exact ⟨vals, rfl, rfl, rfl, rfl⟩
        | false => exact absurd rfl hne
      | confirmAborted => exact absurd rfl hne
      | interrupt => exact absurd rfl hne
    | Done => exact absurd rfl hne
    | Aborted => exact absurd rfl hne

/-- C2, witness: a run that aborts during collection ends with no file
effects. -/
theorem C2_commit_gating_witness :
    (runWorkflow [⟨['A'], [], []⟩] [] true [WEvent.formAborted]).effects = [] :=
  (C2_commit_gating [⟨['A'], [], []⟩] [] true [WEvent.formAborted]).1 (by decide)

/-- C10: every map recorded by a `Write` effect of a workflow run has
exactly the template-declared keys (so keys present only in the prior
target file are absent from the written file); every change record's key
lies in the order the diff was computed over (so no record reports the
dropped keys); and when every ordered key is present with an unchanged
value, the diff is empty even if the old map holds extra keys — such
removals alone never make `changed` true. -/
theorem C10_commit_writes_template_keys (envVars : List EnvVar)
    (existing old collected : ConfigMap) (targetExists : Bool)
    (events : List WEvent) (order : List Str) :
    (∀ vals, FileEffect.Write vals ∈ (runWorkflow envVars existing targetExists events).effects →
        ∀ k, k ∈ keysOf vals ↔ k ∈ envVars.map EnvVar.Key) ∧
    (∀ r, r ∈ computeChanges old collected order → r.recKey ∈ order) ∧
    ((∀ k ∈ order, (lookupKV old k).isSome ∧ lookupKV collected k = lookupKV old k) →
        computeChanges old collected order = []) := by
  refine ⟨?_, ?_, ?_⟩
  · intro vals hv k
    obtain ⟨-, -, -, hW⟩ := reachInv_runWorkflow envVars existing targetExists events
    obtain ⟨f, rfl⟩ := hW vals hv
    exact mem_keysOf_collectValues envVars f k
  · intro r hr
    rw [computeChanges_eq_filterMap] at hr
    obtain ⟨k, hk, hck⟩ := List.mem_filterMap.mp hr
    rw [changeFor_key old collected k r hck]
    exact hk
  · intro h
    rw [computeChanges_eq_filterMap, List.filterMap_eq_nil_iff]
    intro k hk
    exact changeFor_eq_none old collected k (h k hk).1 (h k hk).2

/-- C10, witness: with the prior map holding the undeclared key `B` and
the collected map agreeing on the single template key `A`, the diff is
empty. -/
theorem C10_commit_writes_template_keys_witness :
    computeChanges [(['A'], ['1']), (['B'], ['2'])] [(['A'], ['1'])] [['A']] = [] :=
  (C10_commit_writes_template_keys [] [(['A'], ['1']), (['B'], ['2'])]
      [(['A'], ['1']), (['B'], ['2'])] [(['A'], ['1'])] false [] [['A']]).2.2 (by decide)

/-- C4: the encoder quotes exactly the empty value and values containing
a disallowed character (space, hash, equals, double quote, dollar,
backslash, backtick, newline, carriage return); when quoting it applies
the four replacements in the order backslash, double quote, newline,
carriage return; otherwise it emits the value verbatim. -/
theorem C4_encode_quoting (k v : Str) :
    (needsQuoting v = true ↔ (v = [] ∨ ∃ c ∈ v, c ∈ disallowedChars)) ∧
    (needsQuoting v = true →
        encodeEntry k v =
          k ++ '=' :: '\"' ::
            (replaceAll ['\r'] ['\\', 'r']
              (replaceAll ['\n'] ['\\', 'n']
                (replaceAll ['\"'] ['\\', '\"']
                  (replaceAll ['\\'] ['\\', '\\'] v)))) ++ ['\"', '\n']) ∧
    (needsQuoting v = false → encodeEntry k v = k ++ '=' :: v ++ ['\n']) := by
  refine ⟨?_, ?_, ?_⟩
  · simp [needsQuoting, containsAny, List.any_eq_true, List.isEmpty_iff, List.elem_iff]
  · intro h
    simp [encodeEntry, encodeLine, escapeValue, h]
  · intro h
    simp [encodeEntry, encodeLine, h]

/-- C4, witness: a value containing a space is quoted. -/
theorem C4_encode_quoting_witness :
    needsQuoting ['a', ' '] = true :=
  (C4_encode_quoting ['K'] ['a', ' ']).1.mpr (Or.inr ⟨' ', by decide, by decide⟩)

/-- C8, amended: for a well-formed key, the template lines `k=` and
`k=""` decode to the same field record, whose example value is the empty
string in both cases; the code does not represent an absent default
distinctly from an explicit empty default (downstream both are treated
as absent). -/
theorem C8_empty_default_amended (k : Str)
    (hkh : ∀ c, k.head? = some c → isSpaceChar c = false)
    (hkl : ∀ c, k.getLast? = some c → isSpaceChar c = false)
    (hke : '=' ∉ k) (hkhash : '#' ∉ k) (hne : k ≠ []) :
    decodeTemplateLine (k ++ ['=']) = some ⟨k, [], []⟩ ∧
    decodeTemplateLine (k ++ ['=', '\"', '\"']) = some ⟨k, [], []⟩ := by
  have htrimk : trimSpace k = k := trimSpace_eq_self k hkh hkl
  constructor
  · have htr : trimSpace (k ++ ['=']) = k ++ ['='] :=
      trimSpace_append_tail k ['='] hkh
        (by
          intro c hc
          have h0 : '=' = c := by simpa using hc
          subst h0; decide)
        (by
          intro c hc
          have h0 : ((['='] : Str)).getLast? = some '=' := rfl
          rw [h0] at hc
          injection hc with hc
          subst hc; decide)
        (by simp)
    have hhash : ¬(k ++ ['='] = [] ∨ (k ++ ['=']).head? = some '#') := by
      rintro (h | h)
      · simp at h
      · cases k with
        | nil => exact absurd h (by decide)
        | cons c0 k' =>
          have h0 : c0 = '#' := by simpa using h
          exact hkhash (h0 ▸ List.mem_cons_self c0 k')
    have hnohash : '#' ∉ k ++ ['='] := by
      intro h
      rcases List.mem_append.mp h with h | h
      · exact hkhash h
      · simp at h
    have hsplit : splitFirst '=' (k ++ ['=']) = (k, some []) :=
      splitFirst_append '=' k [] hke
    simp only [decodeTemplateLine, htr, if_neg hhash, splitFirst_of_not_mem '#' _ hnohash,
      hsplit, htrimk]
    rw [if_neg hne]
    have hu0 : unquoteValue (trimSpace []) = [] := by decide
    rw [hu0]
  · have htr : trimSpace (k ++ ['=', '\"', '\"']) = k ++ ['=', '\"', '\"'] :=
      trimSpace_append_tail k ['=', '\"', '\"'] hkh
        (by
          intro c hc
          have h0 : '=' = c := by simpa using hc
          subst h0; decide)
        (by
          intro c hc
          have h0 : ((['=', '\"', '\"'] : Str)).getLast? = some '\"' := rfl
          rw [h0] at hc
          injection hc with hc
          subst hc; decide)
        (by simp)
    have hhash : ¬(k ++ ['=', '\"', '\"'] = [] ∨ (k ++ ['=', '\"', '\"']).head? = some '#') := by
      rintro (h | h)
      · simp at h
      · cases k with
        | nil => exact absurd h (by decide)
        | cons c0 k' =>
          have h0 : c0 = '#' := by simpa using h
          exact hkhash (h0 ▸ List.mem_cons_self c0 k')
    have hnohash : '#' ∉ k ++ ['=', '\"', '\"'] := by
      intro h
      rcases List.mem_append.mp h with h | h
      · exact hkhash h
      · simp at h
    have hsplit : splitFirst '=' (k ++ ['=', '\"', '\"']) = (k, some ['\"', '\"']) :=
      splitFirst_append '=' k ['\"', '\"'] hke
    simp only [decodeTemplateLine, htr, if_neg hhash, splitFirst_of_not_mem '#' _ hnohash,
      hsplit, htrimk]
    rw [if_neg hne]
    have hu : unquoteValue (trimSpace ['\"', '\"']) = [] := by decide
    rw [hu]

/-- C8, witness for the amended theorem at the key `K`. -/
theorem C8_empty_default_amended_witness :
    decodeTemplateLine ['K', '='] = some ⟨['K'], [], []⟩ :=
  (C8_empty_default_amended ['K']
    (by
      intro c hc
      have h0 : 'K' = c := by simpa using hc
      subst h0; decide)
    (by
      intro c hc
      have h0 : ((['K'] : Str)).getLast? = some 'K' := rfl
      rw [h0] at hc
      injection hc with hc
      subst hc; decide)
    (by decide) (by decide) (by decide)).1

/-- C3, counterexample: the tab character is not in the disallowed set,
so the value `a\t` is written unquoted, but decoding trims the trailing
tab away with the surrounding white space of the line; the round trip
returns `a`, not `a\t`. -/
theorem C3_roundtrip_tab_counterexample :
    '\t' ∉ disallowedChars ∧
    decodeExistingConfigLine (encodeLine ['K'] ['a', '\t']) = some (['K'], ['a']) ∧
    (['a'] : Str) ≠ ['a', '\t'] := by
  decide

/-- C3, amended: encoding then decoding one entry returns exactly the
input pair, provided the key has no white space at either end, does not
start with a hash, and contains no equals sign, and the value contains
no disallowed character and additionally does not end with a white-space
character (such as a tab) that line trimming would strip. -/
theorem C3_roundtrip_amended (k v : Str)
    (hkh : ∀ c, k.head? = some c → isSpaceChar c = false ∧ c ≠ '#')
    (hkl : ∀ c, k.getLast? = some c → isSpaceChar c = false)
    (hke : '=' ∉ k)
    (hv : ∀ c ∈ v, c ∉ disallowedChars)
    (hvl : ∀ c, v.getLast? = some c → isSpaceChar c = false) :
    decodeExistingConfigLine (encodeLine k v) = some (k, v) := by
  have hkh1 : ∀ c, k.head? = some c → isSpaceChar c = false := fun c hc => (hkh c hc).1
  have htrimk : trimSpace k = k := trimSpace_eq_self k hkh1 hkl
  by_cases hvnil : v = []
  · subst hvnil
    have hline : encodeLine k [] = k ++ ['=', '\"', '\"'] := rfl
    rw [hline]
    have htr : trimSpace (k ++ ['=', '\"', '\"']) = k ++ ['=', '\"', '\"'] :=
      trimSpace_append_tail k ['=', '\"', '\"'] hkh1
        (by
          intro c hc
          have h0 : '=' = c := by simpa using hc
          subst h0; decide)
        (by
          intro c hc
          have h0 : ((['=', '\"', '\"'] : Str)).getLast? = some '\"' := rfl
          rw [h0] at hc
          injection hc with hc
          subst hc; decide)
        (by simp)
    have hhash : ¬(k ++ ['=', '\"', '\"'] = [] ∨ (k ++ ['=', '\"', '\"']).head? = some '#') := by
      rintro (h | h)
      · simp at h
      · cases k with
        | nil => exact absurd h (by decide)
        | cons c0 k' =>
          have h0 : c0 = '#' := by simpa using h
          exact (hkh c0 rfl).2 h0
    have hsplit : splitFirst '=' (k ++ ['=', '\"', '\"']) = (k, some ['\"', '\"']) :=
      splitFirst_append '=' k ['\"', '\"'] hke
    simp only [decodeExistingConfigLine, htr, if_neg hhash, hsplit, htrimk]
    have hu : unquoteValue ['\"', '\"'] = [] := by decide
    rw [hu]
  · have h1 : v.isEmpty = false := by simpa [List.isEmpty_iff] using hvnil
    have h2 : containsAny v disallowedChars = false := containsAny_eq_false v _ hv
    have hnq : needsQuoting v = false := by simp [needsQuoting, h1, h2]
    have hline : encodeLine k v = k ++ '=' :: v := by
      simp [encodeLine, hnq]
    rw [hline]
    have hvh : ∀ c, ('=' :: v).head? = some c → isSpaceChar c = false := by
      intro c hc
      have h0 : '=' = c := by simpa using hc
      subst h0; decide
    have hvl' : ∀ c, ('=' :: v).getLast? = some c → isSpaceChar c = false := by
      intro c hc
      rw [show ('=' :: v : Str) = ['='] ++ v from rfl,
        List.getLast?_append_of_ne_nil _ hvnil] at hc
      exact hvl c hc
    have htr : trimSpace (k ++ '=' :: v) = k ++ '=' :: v :=
      trimSpace_append_tail k ('=' :: v) hkh1 hvh hvl' (by simp)
    have hhash : ¬(k ++ '=' :: v = [] ∨ (k ++ '=' :: v).head? = some '#') := by
      rintro (h | h)
      · simp at h
      · cases k with
        | nil =>
          have h0 : '=' = '#' := by simpa using h
          exact absurd h0 (by decide)
        | cons c0 k' =>
          have h0 : c0 = '#' := by simpa using h
          exact (hkh c0 rfl).2 h0
    have hsplit : splitFirst '=' (k ++ '=' :: v) = (k, some v) :=
      splitFirst_append '=' k v hke
    simp only [decodeExistingConfigLine, htr, if_neg hhash, hsplit, htrimk]
    have hq : ¬(2 ≤ v.length ∧ v.head? = some '\"' ∧ v.getLast? = some '\"') := by
      rintro ⟨-, hh, -⟩
      exact hv '\"' (List.mem_of_mem_head? hh) (by decide)
    have hu : unquoteValue v = v := by simp [unquoteValue, hq]
    rw [hu]

/-- C3, witness for the amended theorem at the pair `K`/`a`. -/
theorem C3_roundtrip_amended_witness :
    decodeExistingConfigLine (encodeLine ['K'] ['a']) = some (['K'], ['a']) :=
  C3_roundtrip_amended ['K'] ['a']
    (by
      intro c hc
      have h0 : 'K' = c := by simpa using hc
      subst h0
      exact ⟨by decide, by decide⟩)
    (by
      intro c hc
      have h0 : ((['K'] : Str)).getLast? = some 'K' := rfl
      rw [h0] at hc
      injection hc with hc
      subst hc; decide)
    (by decide)
    (by decide)
    (by
      intro c hc
      have h0 : ((['a'] : Str)).getLast? = some 'a' := rfl
      rw [h0] at hc
      injection hc with hc
      subst hc; decide)

end SetupEnv
